import Mathlib

/-!
Verification of the auto-link plugin core (src/main.ts).

The source is a TypeScript plugin that indexes words of a document
collection, rewrites occurrences of indexed words in the edited line into
bracketed references, and supports undoing the most recent rewrite.
Strings are modelled as lists of characters, the term index as a function
from terms to an optional owning document path, and the editor buffer as a
list of lines.  Case folding is modelled on the ASCII range.
-/

namespace AutoLink

/-- Whitespace class of the tokenizer: the source splits text on runs of
regex whitespace; we model the ASCII whitespace characters
(space, tab, line feed, vertical tab, form feed, carriage return). -/
def isWs (c : Char) : Bool :=
  decide (c.toNat ∈ [32, 9, 10, 11, 12, 13])

/-- Punctuation class stripped from both ends of a word, from the regex
character class in main.ts lines 131 and 223: the characters
period, comma, slash, hash, bang, dollar, percent, caret, ampersand,
asterisk, semicolon, colon, open brace, close brace, equals, hyphen,
underscore, backquote, tilde, open paren, close paren, open bracket,
close bracket — given by their code points. -/
def isPunct (c : Char) : Bool :=
  decide (c.toNat ∈ [46, 44, 47, 35, 33, 36, 37, 94, 38, 42, 59, 58, 123, 125,
    61, 45, 95, 96, 126, 40, 41, 91, 93])

/-- Helper of splitWs: walks the line with a state that is either the
current word accumulated in reverse, or none while inside a whitespace
run.  A whitespace character ends the current word; input ending inside a
whitespace run yields a final empty piece, as JavaScript split does. -/
def splitWsGo : List Char → Option (List Char) → List (List Char)
  | [], some acc => [acc.reverse]
  | [], none => [[]]
  | c :: rest, some acc =>
    if isWs c then
      acc.reverse :: splitWsGo rest none
    else
      splitWsGo rest (some (c :: acc))
  | c :: rest, none =>
    if isWs c then
      splitWsGo rest none
    else
      splitWsGo rest (some [c])

/-- Model of JavaScript split on the whitespace regex: splits a string into
the (possibly empty) pieces between maximal whitespace runs.  Used by both
processLineForLinks (line 122) and updateLinkCache (line 219). -/
def splitWs (l : List Char) : List (List Char) :=
  splitWsGo l (some [])

/-- Model of the regex replace at lines 131 and 223: strip the maximal
leading run of punctuation characters, then the maximal trailing run. -/
def cleanWord (w : List Char) : List Char :=
  (((w.dropWhile isPunct).reverse.dropWhile isPunct)).reverse

/-- ASCII model of toLowerCase on one character: an upper-case letter is
shifted into the lower-case range, anything else is unchanged. -/
def lowerChar (c : Char) : Char :=
  if 65 ≤ c.toNat ∧ c.toNat ≤ 90 then Char.ofNat (c.toNat + 32) else c

/-- ASCII model of String.toLowerCase: character-wise lowering. -/
def lowerStr (s : List Char) : List Char :=
  s.map lowerChar

/-- Configuration fields read by the core operations (MyPluginSettings). -/
structure Config where
  minWordLength : Nat
  ignoredWords : List (List Char)
  caseSensitive : Bool
deriving DecidableEq

/-- Case folding applied after cleaning: the cleaned word itself when the
case-sensitive flag is set, its lower-cased form otherwise (lines 132
and 231). -/
def searchKey (cfg : Config) (c : List Char) : List Char :=
  if cfg.caseSensitive then c else lowerStr c

/-- Normalization of a raw word: strip punctuation from both ends, then
apply case folding per the configuration. -/
def normalize (cfg : Config) (w : List Char) : List Char :=
  searchKey cfg (cleanWord w)

/-- The term index (linkCache, line 28): a map from normalized terms to the
path of the owning document, modelled as a function into Option. -/
def Idx : Type :=
  List Char → Option String

/-- Map.set of the term index: point update, overwriting any prior owner. -/
def setIdx (k : List Char) (v : String) (idx : Idx) : Idx :=
  fun t => if t = k then some v else idx t

/-- The empty term index. -/
def emptyIdx : Idx :=
  fun _ => none

/-- The insertion filter of updateLinkCache (lines 226-227): the cleaned
word is long enough and its lower-cased form is not in the ignored list;
the ignore comparison is on the lower-cased cleaned word regardless of the
case-sensitive flag. -/
def cacheInserts (cfg : Config) (word : List Char) : Bool :=
  (cleanWord word).length ≥ cfg.minWordLength
    && !(cfg.ignoredWords.contains (lowerStr (cleanWord word)))

/-- One word of updateLinkCache (lines 221-235): clean the word; if the
insertion filter passes, store the (case-folded) key with the file path,
else leave the index unchanged. -/
def cacheStep (cfg : Config) (filePath : String) (idx : Idx) (word : List Char) : Idx :=
  if cacheInserts cfg word then
    setIdx (searchKey cfg (cleanWord word)) filePath idx
  else
    idx

/-- updateLinkCache (lines 217-236): fold the per-word update over all
whitespace-separated words of the document text. -/
def updateLinkCache (cfg : Config) (content : List Char) (filePath : String)
    (idx : Idx) : Idx :=
  (splitWs content).foldl (cacheStep cfg filePath) idx

/-- scanVaultForLinks (lines 93-101): read every document in order and feed
it to updateLinkCache.  The existing index is NOT cleared first.  A
document is a pair of its path and its full text. -/
def scanVaultForLinks (cfg : Config) (files : List (String × List Char))
    (idx : Idx) : Idx :=
  files.foldl (fun i f => updateLinkCache cfg f.2 f.1 i) idx

/-- The open reference marker, two characters. -/
def obr : List Char :=
  ['[', '[']

/-- The close reference marker, two characters. -/
def cbr : List Char :=
  [']', ']']

/-- First index at which the pattern w occurs as a contiguous block of l,
none when it does not occur: the model of String.indexOf at line 146. -/
def firstIdx (w : List Char) : List Char → Option Nat
  | [] => if w = [] then some 0 else none
  | c :: rest =>
    if w <+: c :: rest then some 0 else (firstIdx w rest).map (· + 1)

/-- String.includes of the source (lines 142-143): the pattern occurs
somewhere in the string. -/
def containsSub (l pat : List Char) : Bool :=
  (firstIdx pat l).isSome

/-- One match emitted by the line-processing loop: the raw word, the owner
found in the index, and the span it will rewrite. -/
structure Match where
  word : List Char
  owner : String
  lineNum : Nat
  startCh : Nat
  endCh : Nat
deriving DecidableEq

/-- The match engine inside processLineForLinks (lines 129-154): for each
whitespace-separated word of the line, clean and case-fold it, apply the
length and ignored-words filters, look the key up in the index, and emit a
match unless the owner is the current file or the raw word already
contains a reference marker.  The span starts at the first occurrence of
the raw word in the line (String.indexOf; the substring clamp makes a
missing occurrence read as offset 0) and covers the raw word. -/
def findMatches (cfg : Config) (idx : Idx) (curFile : String)
    (line : List Char) (lineNum : Nat) : List Match :=
  (splitWs line).filterMap (fun word =>
    if (cleanWord word).length ≥ cfg.minWordLength
        && !(cfg.ignoredWords.contains (searchKey cfg (cleanWord word))) then
      match idx (searchKey cfg (cleanWord word)) with
      | some owner =>
        if owner ≠ curFile && !(containsSub word obr) && !(containsSub word cbr) then
          some { word := word
                 owner := owner
                 lineNum := lineNum
                 startCh := (firstIdx word line).getD 0
                 endCh := (firstIdx word line).getD 0 + word.length }
        else
          none
      | none => none
    else
      none)

/-- One history entry (changeHistory, line 29): the original word text, the
start position of the replacement, and the owning document path. -/
structure HistEntry where
  text : List Char
  line : Nat
  ch : Nat
  file : String
deriving DecidableEq

/-- Editor-facing state: the text buffer as a list of lines, and the
history stack with its most recent entry first. -/
structure EditorState where
  buffer : List (List Char)
  history : List HistEntry
deriving DecidableEq

/-- Replacement of the character span from s to e of a single line. -/
def spliceLine (l : List Char) (s e : Nat) (repl : List Char) : List Char :=
  l.take s ++ repl ++ l.drop e

/-- editor.replaceRange for a range lying on one line: splice that line of
the buffer, leaving the buffer unchanged when the line does not exist. -/
def replaceInBuffer (buf : List (List Char)) (ln s e : Nat)
    (repl : List Char) : List (List Char) :=
  buf.set ln (spliceLine (buf.getD ln []) s e repl)

/-- The rewritten text: the raw word wrapped in the reference markers
(line 157). -/
def wrapLink (w : List Char) : List Char :=
  obr ++ w ++ cbr

/-- Application of one match (lines 156-167): push the history entry with
the raw word, the start position and the current file, and replace the
match span with the wrapped word. -/
def applyMatch (curFile : String) (st : EditorState) (m : Match) : EditorState :=
  { buffer := replaceInBuffer st.buffer m.lineNum m.startCh m.endCh (wrapLink m.word)
    history := { text := m.word, line := m.lineNum, ch := m.startCh, file := curFile }
      :: st.history }

/-- processLineForLinks (lines 121-173): apply every emitted match in
order.  All spans are computed from the immutable line argument, so
collecting the matches first and folding the applications is exactly the
source loop. -/
def processLineForLinks (cfg : Config) (idx : Idx) (curFile : String)
    (line : List Char) (lineNum : Nat) (st : EditorState) : EditorState :=
  (findMatches cfg idx curFile line lineNum).foldl (applyMatch curFile) st

/-- undoLastLink (lines 183-203): pop the most recent entry (no-op when the
history is empty).  The pop happens before any other check, so the entry
is discarded even when no view is active or the active file differs; only
when the active file equals the stored file is the span of length
text.length + 4 replaced by the bare text. -/
def undoLastLink (activeFile : Option String) (st : EditorState) : EditorState :=
  match st.history with
  | [] => st
  | e :: rest =>
    match activeFile with
    | none => { st with history := rest }
    | some f =>
      if f = e.file then
        { buffer := replaceInBuffer st.buffer e.line e.ch (e.ch + e.text.length + 4) e.text
          history := rest }
      else
        { st with history := rest }

/-- One user-driven operation on the editor state: a line rewrite pass or
an undo. -/
inductive Op where
  | rewrite (cfg : Config) (idx : Idx) (curFile : String)
      (line : List Char) (lineNum : Nat) : Op
  | undo (activeFile : Option String) : Op

/-- Effect of one operation on the editor state. -/
def stepOp (st : EditorState) : Op → EditorState
  | Op.rewrite cfg idx curFile line lineNum =>
      processLineForLinks cfg idx curFile line lineNum st
  | Op.undo activeFile => undoLastLink activeFile st

/-- The state reached from an initial buffer and an empty history by a
sequence of rewrite and undo operations. -/
def run (buf0 : List (List Char)) (ops : List Op) : EditorState :=
  ops.foldl stepOp { buffer := buf0, history := [] }

/-! Lemmas about the tokenizer and indexOf. -/

/-- Every piece produced by the split walker is either the pending
accumulator extended by a prefix of the remaining input, or a block
occurring somewhere in the remaining input. -/
theorem mem_splitWsGo {l : List Char} {st : Option (List Char)} {w : List Char}
    (h : w ∈ splitWsGo l st) :
    (∃ acc, st = some acc ∧ ∃ t, t <+: l ∧ w = acc.reverse ++ t)
    ∨ ∃ i, w <+: l.drop i := by
  induction l generalizing st w with
  | nil =>
    cases st with
    | none =>
      simp only [splitWsGo, List.mem_singleton] at h
      exact Or.inr ⟨0, by simp [h]⟩
    | some acc =>
      simp only [splitWsGo, List.mem_singleton] at h
      exact Or.inl ⟨acc, rfl, [], List.nil_prefix, by simp [h]⟩
  | cons c rest ih =>
    cases st with
    | none =>
      simp only [splitWsGo] at h
      by_cases hws : isWs c = true
      · rw [if_pos hws] at h
        rcases ih h with ⟨acc, hacc, -⟩ | ⟨i, hi⟩
        · cases hacc
        · exact Or.inr ⟨i + 1, by simpa using hi⟩
      · rw [if_neg hws] at h
        rcases ih h with ⟨acc, hacc, t, ht, hw⟩ | ⟨i, hi⟩
        · cases hacc
          right
          refine ⟨0, ?_⟩
          simp only [List.drop_zero]
          have : w = c :: t := by simpa using hw
          rw [this]
          exact List.cons_prefix_cons.mpr ⟨rfl, ht⟩
        · exact Or.inr ⟨i + 1, by simpa using hi⟩
    | some acc =>
      simp only [splitWsGo] at h
      by_cases hws : isWs c = true
      · rw [if_pos hws, List.mem_cons] at h
        rcases h with h | h
        · exact Or.inl ⟨acc, rfl, [], List.nil_prefix, by simp [h]⟩
        · rcases ih h with ⟨acc2, hacc, -⟩ | ⟨i, hi⟩
          · cases hacc
          · exact Or.inr ⟨i + 1, by simpa using hi⟩
      · rw [if_neg hws] at h
        rcases ih h with ⟨acc2, hacc, t, ht, hw⟩ | ⟨i, hi⟩
        · cases hacc
          left
          refine ⟨acc, rfl, c :: t, List.cons_prefix_cons.mpr ⟨rfl, ht⟩, ?_⟩
          simpa using hw
        · exact Or.inr ⟨i + 1, by simpa using hi⟩

/-- Every word of the whitespace split occurs contiguously in the line. -/
theorem occurs_of_mem_splitWs {l w : List Char} (h : w ∈ splitWs l) :
    ∃ i, w <+: l.drop i := by
  rcases mem_splitWsGo h with ⟨acc, hacc, t, ht, hw⟩ | hi
  · cases hacc
    exact ⟨0, by simpa [hw] using ht⟩
  · exact hi

/-- When firstIdx finds an index, the pattern occurs there and at no
earlier index: it is the first occurrence. -/
theorem firstIdx_spec {w l : List Char} {i : Nat} (h : firstIdx w l = some i) :
    w <+: l.drop i ∧ ∀ j, j < i → ¬ w <+: l.drop j := by
  induction l generalizing i with
  | nil =>
    simp only [firstIdx] at h
    split at h
    · rename_i hw
      cases h
      subst hw
      exact ⟨ List.nil_prefix, by omega⟩
    · cases h
  | cons c rest ih =>
    simp only [firstIdx] at h
    split at h
    · cases h
      rename_i hp
      exact ⟨hp, by omega⟩
    · rename_i hp
      rcases Option.map_eq_some'.mp h with ⟨i0, hi0, rfl⟩
      rcases ih hi0 with ⟨hocc, hmin⟩
      refine ⟨by simpa using hocc, ?_⟩
      intro j hj
      cases j with
      | zero => simpa using hp
      | succ j0 =>
        have := hmin j0 (by omega)
        simpa using this

/-- When the pattern occurs somewhere in the string, firstIdx finds an
occurrence. -/
theorem firstIdx_isSome {w l : List Char} {i : Nat} (h : w <+: l.drop i) :
    (firstIdx w l).isSome = true := by
  induction l generalizing i with
  | nil =>
    have hw : w = [] := List.prefix_nil.mp (by simpa using h)
    simp [firstIdx, hw]
  | cons c rest ih =>
    cases i with
    | zero =>
      simp only [List.drop_zero] at h
      simp [firstIdx, h]
    | succ i0 =>
      simp only [List.drop_succ_cons] at h
      simp only [firstIdx]
      split
      · simp
      · simpa using ih h

/-- An index found by firstIdx, plus the pattern length, stays within the
string. -/
theorem firstIdx_le {w l : List Char} {i : Nat} (h : firstIdx w l = some i) :
    i + w.length ≤ l.length := by
  have hocc := (firstIdx_spec h).1
  have hlen := hocc.length_le
  simp only [List.length_drop] at hlen
  by_cases hi : i ≤ l.length
  · omega
  · have : l.drop i = [] := List.drop_eq_nil_of_le (by omega)
    rw [this] at hocc
    have hw : w = [] := List.prefix_nil.mp hocc
    subst hw
    -- an occurrence of the empty pattern is found at index 0
    have : firstIdx ([] : List Char) l = some 0 := by
      cases l with
      | nil => simp [firstIdx]
      | cons c rest => simp [firstIdx]
    rw [this] at h
    cases h
    simp

/-! Characterization of the matches emitted by the match engine. -/

/-- Unfolding of membership in findMatches: an emitted match records a word
of the line's whitespace split that passed the length and ignore filters,
whose key the index maps to the recorded owner, with the owner distinct
from the current file, no reference marker inside the word, and the span
given by the first occurrence of the word in the line. -/
theorem mem_findMatches {cfg : Config} {idx : Idx} {curFile : String}
    {line : List Char} {lineNum : Nat} {m : Match}
    (h : m ∈ findMatches cfg idx curFile line lineNum) :
    m.word ∈ splitWs line
    ∧ (cleanWord m.word).length ≥ cfg.minWordLength
    ∧ cfg.ignoredWords.contains (searchKey cfg (cleanWord m.word)) = false
    ∧ idx (searchKey cfg (cleanWord m.word)) = some m.owner
    ∧ m.owner ≠ curFile
    ∧ containsSub m.word obr = false
    ∧ containsSub m.word cbr = false
    ∧ m.lineNum = lineNum
    ∧ m.startCh = (firstIdx m.word line).getD 0
    ∧ m.endCh = m.startCh + m.word.length := by
  simp only [findMatches, List.mem_filterMap] at h
  rcases h with ⟨word, hword, hm⟩
  split at hm
  · rename_i hfil
    split at hm
    · rename_i owner hand
      split at hm
      · rename_i hg
        cases hm
        simp only [Bool.and_eq_true, decide_eq_true_eq, Bool.not_eq_true',
          ge_iff_le, decide_eq_true_eq] at hfil hg
        exact ⟨hword, hfil.1, hfil.2, hand, hg.1.1, hg.1.2, hg.2, rfl, rfl, rfl⟩
      · cases hm
    · cases hm
  · cases hm

/-- The start offset of an emitted match is the index found by firstIdx on
the processed line, and the word occurs there. -/
theorem match_startCh {cfg : Config} {idx : Idx} {curFile : String}
    {line : List Char} {lineNum : Nat} {m : Match}
    (h : m ∈ findMatches cfg idx curFile line lineNum) :
    firstIdx m.word line = some m.startCh := by
  obtain ⟨hword, -, -, -, -, -, -, -, hstart, -⟩ := mem_findMatches h
  rcases occurs_of_mem_splitWs hword with ⟨i, hi⟩
  have hsome := firstIdx_isSome hi
  rcases Option.isSome_iff_exists.mp hsome with ⟨j, hj⟩
  rw [hj]
  rw [hstart, hj]
  rfl

/-- C2.  The match engine never emits a match whose owner is the current
document: every match of findMatches has owner distinct from the current
file identifier. -/
theorem C2_no_self_links {cfg : Config} {idx : Idx} {curFile : String}
    {line : List Char} {lineNum : Nat} {m : Match}
    (h : m ∈ findMatches cfg idx curFile line lineNum) :
    m.owner ≠ curFile :=
  (mem_findMatches h).2.2.2.2.1

/-- Default-like configuration used for concrete checks. -/
def cfgEx : Config :=
  { minWordLength := 3
    ignoredWords := [['t','h','e'], ['a','n','d'], ['b','u','t'], ['f','o','r']]
    caseSensitive := false }

/-- Concrete index owning the term banana for the document apple.md. -/
def idxEx : Idx :=
  fun t => if t = ['b','a','n','a','n','a'] then some "apple.md" else none

/-- Concrete line used to exercise the match engine. -/
def lineEx : List Char :=
  ['I', ' ', 'l', 'o', 'v', 'e', ' ', 'b', 'a', 'n', 'a', 'n', 'a',
   ' ', 'b', 'r', 'e', 'a', 'd']

/-- The match emitted on lineEx for the word banana. -/
def matchEx : Match :=
  { word := ['b','a','n','a','n','a'], owner := "apple.md", lineNum := 0
    startCh := 7, endCh := 13 }

theorem C2_no_self_links_witness :
    matchEx ∈ findMatches cfgEx idxEx "other.md" lineEx 0
    ∧ matchEx.owner ≠ "other.md" :=
  ⟨by decide,
   @C2_no_self_links cfgEx idxEx "other.md" lineEx 0 matchEx (by decide)⟩

/-- C3.  The match engine never emits a match for a raw word that already
contains the open or close reference marker. -/
theorem C3_no_marker_words {cfg : Config} {idx : Idx} {curFile : String}
    {line : List Char} {lineNum : Nat} {m : Match}
    (h : m ∈ findMatches cfg idx curFile line lineNum) :
    containsSub m.word obr = false ∧ containsSub m.word cbr = false :=
  ⟨(mem_findMatches h).2.2.2.2.2.1, (mem_findMatches h).2.2.2.2.2.2.1⟩

theorem C3_no_marker_words_witness :
    matchEx ∈ findMatches cfgEx idxEx "other.md" lineEx 0
    ∧ containsSub matchEx.word obr = false
    ∧ containsSub matchEx.word cbr = false := by
  refine ⟨by decide, ?_⟩
  exact @C3_no_marker_words cfgEx idxEx "other.md" lineEx 0 matchEx (by decide)

/-- C9.  Every emitted match spans the first occurrence of its raw word in
the line: the word occurs at the start offset, occurs at no earlier
offset, the end offset is the start plus the word length, and two emitted
matches with the same raw word have the same start offset. -/
theorem C9_first_occurrence_span {cfg : Config} {idx : Idx} {curFile : String}
    {line : List Char} {lineNum : Nat} {m m' : Match}
    (h : m ∈ findMatches cfg idx curFile line lineNum)
    (h' : m' ∈ findMatches cfg idx curFile line lineNum) :
    m.word <+: line.drop m.startCh
    ∧ (∀ j, j < m.startCh → ¬ m.word <+: line.drop j)
    ∧ m.endCh = m.startCh + m.word.length
    ∧ (m'.word = m.word → m'.startCh = m.startCh) := by
  have hfi := match_startCh h
  have hfi' := match_startCh h'
  rcases firstIdx_spec hfi with ⟨hocc, hmin⟩
  refine ⟨hocc, hmin, (mem_findMatches h).2.2.2.2.2.2.2.2.2, ?_⟩
  intro hww
  rw [hww] at hfi'
  rw [hfi'] at hfi
  exact Option.some.inj hfi

theorem C9_first_occurrence_span_witness :
    matchEx ∈ findMatches cfgEx idxEx "other.md" lineEx 0
    ∧ matchEx.word <+: lineEx.drop matchEx.startCh
    ∧ matchEx.endCh = matchEx.startCh + matchEx.word.length := by
  have hmem : matchEx ∈ findMatches cfgEx idxEx "other.md" lineEx 0 := by decide
  obtain ⟨h1, h2, h3, h4⟩ := C9_first_occurrence_span hmem hmem
  exact ⟨hmem, h1, h3⟩

/-! Round trip of one rewrite followed by an immediate undo. -/

/-- A line decomposes around an occurrence of a block. -/
theorem eq_take_append_drop_of_occurs {l w : List Char} {s : Nat}
    (hp : w <+: l.drop s) :
    l = l.take s ++ w ++ l.drop (s + w.length) := by
  rcases hp with ⟨t, ht⟩
  have hdrop : l.drop (s + w.length) = t := by
    have h1 : l.drop (s + w.length) = (l.drop s).drop w.length := by
      rw [List.drop_drop]
    rw [h1, ← ht, List.drop_left]
  conv_lhs => rw [← List.take_append_drop s l, ← ht]
  rw [hdrop, List.append_assoc]

/-- Replacing the span of an occurrence of w with the bracketed word, then
replacing the same start extended by the word length plus the four marker
characters with the bare word, restores the original line. -/
theorem spliceLine_roundtrip {l w : List Char} {s : Nat}
    (hp : w <+: l.drop s) (hb : s ≤ l.length) :
    spliceLine (spliceLine l s (s + w.length) (wrapLink w)) s
      (s + w.length + 4) w = l := by
  have hdec := eq_take_append_drop_of_occurs hp
  have hAlen : (l.take s).length = s := by
    rw [List.length_take]
    omega
  have hmid : spliceLine l s (s + w.length) (wrapLink w)
      = l.take s ++ wrapLink w ++ l.drop (s + w.length) := rfl
  rw [hmid]
  show (l.take s ++ wrapLink w ++ l.drop (s + w.length)).take s ++ w
      ++ (l.take s ++ wrapLink w ++ l.drop (s + w.length)).drop (s + w.length + 4) = l
  have htake : (l.take s ++ wrapLink w ++ l.drop (s + w.length)).take s = l.take s := by
    rw [List.append_assoc]
    exact List.take_left' hAlen
  have hwrap : (l.take s ++ wrapLink w).length = s + w.length + 4 := by
    simp [wrapLink, obr, cbr, hAlen]
    omega
  have hdrop : (l.take s ++ wrapLink w ++ l.drop (s + w.length)).drop (s + w.length + 4)
      = l.drop (s + w.length) :=
    List.drop_left' hwrap
  rw [htake, hdrop]
  exact hdec.symm

/-- Writing back the element already at a position leaves the list
unchanged. -/
theorem set_getD_self {α : Type} {l : List α} {n : Nat} {d : α}
    (h : n < l.length) : l.set n (l.getD n d) = l := by
  induction l generalizing n with
  | nil => simp at h
  | cons a t ih =>
    cases n with
    | zero => simp
    | succ n0 =>
      simp only [List.getD_cons_succ, List.set_cons_succ, List.cons.injEq, true_and]
      exact ih (by simpa using Nat.lt_of_succ_lt_succ h)

/-- Buffer-level round trip: rewriting an occurrence of w on one line of
the buffer and then undoing the same span restores the buffer. -/
theorem replaceInBuffer_roundtrip {buf : List (List Char)} {ln s : Nat}
    {w : List Char} (hp : w <+: (buf.getD ln []).drop s)
    (hb : s ≤ (buf.getD ln []).length) :
    replaceInBuffer (replaceInBuffer buf ln s (s + w.length) (wrapLink w)) ln s
      (s + w.length + 4) w = buf := by
  by_cases hln : ln < buf.length
  · have hlen2 : ln < (buf.set ln (spliceLine (buf.getD ln []) s (s + w.length)
        (wrapLink w))).length := by simpa using hln
    have hget : (buf.set ln (spliceLine (buf.getD ln []) s (s + w.length)
        (wrapLink w))).getD ln []
        = spliceLine (buf.getD ln []) s (s + w.length) (wrapLink w) := by
      rw [List.getD_eq_getElem _ _ hlen2]
      exact List.getElem_set_self hlen2
    show (buf.set ln (spliceLine (buf.getD ln []) s (s + w.length)
        (wrapLink w))).set ln
        (spliceLine ((buf.set ln (spliceLine (buf.getD ln []) s (s + w.length)
          (wrapLink w))).getD ln []) s (s + w.length + 4) w) = buf
    rw [hget, List.set_set, spliceLine_roundtrip hp hb]
    exact set_getD_self hln
  · have hle : buf.length ≤ ln := Nat.le_of_not_lt hln
    show (buf.set ln (spliceLine (buf.getD ln []) s (s + w.length)
        (wrapLink w))).set ln _ = buf
    rw [List.set_eq_of_length_le hle]
    rw [List.set_eq_of_length_le hle]

/-- C1.  Round trip of the rewrite engine: applying a match emitted by the
match engine on the current line of the buffer and then immediately
undoing on the same active document restores the buffer to its pre-match
text and removes the pushed history entry, returning exactly the prior
editor state. -/
theorem C1_apply_undo_roundtrip {cfg : Config} {idx : Idx} {curFile : String}
    {buf : List (List Char)} {hist : List HistEntry} {lineNum : Nat} {m : Match}
    (h : m ∈ findMatches cfg idx curFile (buf.getD lineNum []) lineNum) :
    undoLastLink (some curFile)
      (applyMatch curFile { buffer := buf, history := hist } m)
      = { buffer := buf, history := hist } := by
  obtain ⟨hword, -, -, -, -, -, -, hln, -, hend⟩ := mem_findMatches h
  have hfi := match_startCh h
  rcases firstIdx_spec hfi with ⟨hocc, -⟩
  have hbound := firstIdx_le hfi
  simp only [applyMatch, undoLastLink, if_pos rfl]
  have hbuf : replaceInBuffer
      (replaceInBuffer buf m.lineNum m.startCh m.endCh (wrapLink m.word))
      m.lineNum m.startCh (m.startCh + m.word.length + 4) m.word = buf := by
    rw [hend, hln]
    exact replaceInBuffer_roundtrip hocc (by omega)
  rw [hln] at hbuf
  simp [hln, hbuf]

/-- Buffer used in the concrete round-trip check. -/
def bufEx : List (List Char) :=
  [lineEx]

theorem C1_apply_undo_roundtrip_witness :
    matchEx ∈ findMatches cfgEx idxEx "other.md" (bufEx.getD 0 []) 0
    ∧ undoLastLink (some "other.md")
        (applyMatch "other.md" { buffer := bufEx, history := [] } matchEx)
      = { buffer := bufEx, history := [] } :=
  ⟨by decide,
   @C1_apply_undo_roundtrip cfgEx idxEx "other.md" bufEx [] 0 matchEx (by decide)⟩

/-! Undo edge cases and normalization. -/

/-- C6.  Undo modifies the buffer only with a non-empty history and a
matching active document: on empty history the whole state is unchanged,
and on a document mismatch the buffer is unchanged while the popped entry
is still discarded, never reinserted. -/
theorem C6_undo_empty_noop_mismatch_discards (af : Option String)
    (buf : List (List Char)) (e : HistEntry) (rest : List HistEntry)
    (f : String) (hf : f ≠ e.file) :
    undoLastLink af { buffer := buf, history := [] }
      = { buffer := buf, history := [] }
    ∧ undoLastLink (some f) { buffer := buf, history := e :: rest }
      = { buffer := buf, history := rest } := by
  constructor
  · rfl
  · simp [undoLastLink, hf]

theorem C6_undo_empty_noop_mismatch_discards_witness :
    ("b.md" ≠ ("a.md" : String))
    ∧ undoLastLink (some "x.md") { buffer := [], history := [] }
      = { buffer := [], history := [] }
    ∧ undoLastLink (some "b.md")
        { buffer := [['h','i']],
          history := [{ text := ['h','i'], line := 0, ch := 0, file := "a.md" }] }
      = { buffer := [['h','i']], history := [] } := by
  have h := C6_undo_empty_noop_mismatch_discards (some "x.md") [['h','i']]
    { text := ['h','i'], line := 0, ch := 0, file := "a.md" } [] "b.md" (by decide)
  have h2 := C6_undo_empty_noop_mismatch_discards (some "x.md") []
    { text := ['h','i'], line := 0, ch := 0, file := "a.md" } [] "b.md" (by decide)
  exact ⟨by decide, h2.1, h.2⟩

/-- Conversion of a valid code point built by Char.ofNat back to Nat. -/
theorem toNat_ofNat_of_small {n : Nat} (h : n < 55296) :
    (Char.ofNat n).toNat = n := by
  rw [Char.ofNat, dif_pos (Or.inl h)]
  rfl

/-- Lower-casing does not move a character into or out of the punctuation
class: punctuation code points are outside both letter ranges. -/
theorem isPunct_lowerChar (c : Char) : isPunct (lowerChar c) = isPunct c := by
  unfold lowerChar
  split
  · rename_i h
    have h32 : (Char.ofNat (c.toNat + 32)).toNat = c.toNat + 32 :=
      toNat_ofNat_of_small (by omega)
    have h1 : isPunct (Char.ofNat (c.toNat + 32)) = false := by
      simp only [isPunct, h32, decide_eq_false_iff_not, List.mem_cons,
        List.not_mem_nil, or_false]
      omega
    have h2 : isPunct c = false := by
      simp only [isPunct, decide_eq_false_iff_not, List.mem_cons,
        List.not_mem_nil, or_false]
      omega
    rw [h1, h2]
  · rfl

/-- Lower-casing one character is idempotent. -/
theorem lowerChar_lowerChar (c : Char) : lowerChar (lowerChar c) = lowerChar c := by
  by_cases h : 65 ≤ c.toNat ∧ c.toNat ≤ 90
  · have h32 : (Char.ofNat (c.toNat + 32)).toNat = c.toNat + 32 :=
      toNat_ofNat_of_small (by omega)
    simp only [lowerChar, if_pos h]
    rw [h32, if_neg (by omega)]
  · simp only [lowerChar, if_neg h]

/-- Lower-casing a string is idempotent. -/
theorem lowerStr_idem (s : List Char) : lowerStr (lowerStr s) = lowerStr s := by
  induction s with
  | nil => rfl
  | cons c t ih =>
    simp only [lowerStr, List.map_cons] at *
    rw [lowerChar_lowerChar]
    exact congrArg _ ih

/-- A prefix of a list unchanged by dropWhile is itself unchanged. -/
theorem dropWhile_eq_self_of_prefix {p : Char → Bool} {u v : List Char}
    (hp : v <+: u) (hu : u.dropWhile p = u) : v.dropWhile p = v := by
  cases v with
  | nil => rfl
  | cons a t =>
    cases u with
    | nil => exact absurd (List.prefix_nil.mp hp) (by simp)
    | cons b s =>
      obtain ⟨hab, -⟩ := List.cons_prefix_cons.mp hp
      have hb : p b = false := by
        by_contra hcon
        simp only [Bool.not_eq_false] at hcon
        rw [List.dropWhile_cons, if_pos hcon] at hu
        have hlen := congrArg List.length hu
        have hle := (List.dropWhile_sublist (l := s) p).length_le
        simp only [List.length_cons] at hlen
        omega
      subst hab
      rw [List.dropWhile_cons, if_neg (by simp [hb])]

/-- Stripping punctuation from both ends is idempotent. -/
theorem cleanWord_idem (w : List Char) :
    cleanWord (cleanWord w) = cleanWord w := by
  unfold cleanWord
  set u := w.dropWhile isPunct with hu
  set X := u.reverse.dropWhile isPunct with hX
  have hu_fix : u.dropWhile isPunct = u := by
    rw [hu]
    exact List.dropWhile_idempotent _ _
  have hX_fix : X.dropWhile isPunct = X := by
    rw [hX]
    exact List.dropWhile_idempotent _ _
  have hpref : X.reverse <+: u := by
    rcases List.dropWhile_suffix (l := u.reverse) isPunct with ⟨t, ht⟩
    refine ⟨t.reverse, ?_⟩
    have h2 := congrArg List.reverse ht
    simpa [hX] using h2
  have h1 : X.reverse.dropWhile isPunct = X.reverse :=
    dropWhile_eq_self_of_prefix hpref hu_fix
  rw [h1, List.reverse_reverse, hX_fix]

/-- Punctuation stripping commutes with lower-casing. -/
theorem cleanWord_lowerStr (x : List Char) :
    cleanWord (lowerStr x) = lowerStr (cleanWord x) := by
  have hpf : (isPunct ∘ lowerChar) = isPunct := funext isPunct_lowerChar
  unfold cleanWord lowerStr
  simp only [List.dropWhile_map, hpf, ← List.map_reverse]

/-- C7.  Normalization, the punctuation strip followed by the optional
case folding, is idempotent for every raw word and either value of the
case-sensitive flag. -/
theorem C7_normalize_idempotent (cfg : Config) (w : List Char) :
    normalize cfg (normalize cfg w) = normalize cfg w := by
  unfold normalize searchKey
  by_cases hcs : cfg.caseSensitive = true
  · simp only [if_pos hcs]
    exact cleanWord_idem _
  · simp only [if_neg hcs]
    rw [cleanWord_lowerStr, cleanWord_idem]
    exact lowerStr_idem _

/-! The term index: last write wins, and no eviction on rebuild. -/

/-- A document text yields the term t when some word of its whitespace
split passes the insertion filter and its case-folded cleaned form is
exactly t. -/
def docYields (cfg : Config) (content t : List Char) : Bool :=
  (splitWs content).any (fun w => cacheInserts cfg w && (searchKey cfg (cleanWord w) == t))

/-- The owner the scan leaves for a term: the identifier of the last
document in scan order whose text yields the term, none when no scanned
document yields it. -/
def lastYield (cfg : Config) : List (String × List Char) → List Char → Option String
  | [], _ => none
  | f :: fs, t =>
    match lastYield cfg fs t with
    | some d => some d
    | none => if docYields cfg f.2 t then some f.1 else none

/-- Lookup after folding the per-word cache update over a word list: the
file path when some word inserts the term, the prior binding otherwise. -/
theorem foldl_cacheStep_lookup (cfg : Config) (path : String)
    (ws : List (List Char)) (idx : Idx) (t : List Char) :
    ws.foldl (cacheStep cfg path) idx t
      = if ws.any (fun w => cacheInserts cfg w && (searchKey cfg (cleanWord w) == t))
        then some path else idx t := by
  induction ws generalizing idx with
  | nil => simp
  | cons w rest ih =>
    simp only [List.foldl_cons, List.any_cons]
    rw [ih]
    by_cases hrest :
        rest.any (fun w => cacheInserts cfg w && (searchKey cfg (cleanWord w) == t)) = true
    · rw [if_pos hrest, if_pos (by simp [hrest])]
    · rw [if_neg hrest]
      simp only [hrest, Bool.or_false]
      unfold cacheStep
      by_cases hins : cacheInserts cfg w = true
      · rw [if_pos hins]
        unfold setIdx
        by_cases hkey : searchKey cfg (cleanWord w) = t
        · rw [if_pos (by rw [hkey]), if_pos (by simp [hins, hkey])]
        · rw [if_neg (fun hc => hkey hc.symm), if_neg (by simp [hkey])]
      · rw [if_neg hins, if_neg (by simp [hins])]

/-- Lookup after updateLinkCache on one document. -/
theorem lookup_updateLinkCache (cfg : Config) (content : List Char)
    (path : String) (idx : Idx) (t : List Char) :
    updateLinkCache cfg content path idx t
      = if docYields cfg content t then some path else idx t :=
  foldl_cacheStep_lookup cfg path (splitWs content) idx t

/-- Lookup after a full scan: the last yielding document wins, and a term
no scanned document yields keeps its prior binding. -/
theorem lookup_scanVault (cfg : Config) (files : List (String × List Char))
    (idx : Idx) (t : List Char) :
    scanVaultForLinks cfg files idx t
      = match lastYield cfg files t with
        | some d => some d
        | none => idx t := by
  induction files generalizing idx with
  | nil => rfl
  | cons f fs ih =>
    show scanVaultForLinks cfg fs (updateLinkCache cfg f.2 f.1 idx) t = _
    rw [ih]
    rcases hfs : lastYield cfg fs t with _ | d
    · simp only [lastYield, hfs]
      rw [lookup_updateLinkCache]
      by_cases hd : docYields cfg f.2 t = true
      · rw [if_pos hd, if_pos hd]
      · rw [if_neg hd, if_neg hd]
    · simp only [lastYield, hfs]

/-- C4.  Last write wins: when some scanned document yields the term, the
index after the full scan maps the term to the identifier of the last
document in scan order that yields it, whatever the starting index. -/
theorem C4_last_scanned_owner {cfg : Config} {files : List (String × List Char)}
    {idx : Idx} {t : List Char} {d : String}
    (h : lastYield cfg files t = some d) :
    scanVaultForLinks cfg files idx t = some d := by
  rw [lookup_scanVault, h]

/-- Two documents both containing the term banana, scanned in order. -/
def docsBanana : List (String × List Char) :=
  [("a.md", ['b','a','n','a','n','a']),
   ("b.md", ['b','a','n','a','n','a',' ','p','i','e'])]

theorem C4_last_scanned_owner_witness :
    lastYield cfgEx docsBanana ['b','a','n','a','n','a'] = some "b.md"
    ∧ scanVaultForLinks cfgEx docsBanana emptyIdx ['b','a','n','a','n','a']
      = some "b.md" :=
  ⟨by decide,
   @C4_last_scanned_owner cfgEx docsBanana emptyIdx ['b','a','n','a','n','a']
     "b.md" (by decide)⟩

/-- The stale term of the eviction counterexample. -/
def staleTerm : List Char :=
  ['x','y','z']

/-- A prior index state owning the stale term for a.md. -/
def idxStale : Idx :=
  setIdx staleTerm "a.md" emptyIdx

/-- The single document of the rebuild, not containing the stale term. -/
def docsFresh : List (String × List Char) :=
  [("b.md", ['h','e','l','l','o'])]

/-- C5 counterexample.  A full rebuild over a document set in which the
stale term appears nowhere leaves the stale entry in place: the scan never
clears the index, so the claim that no such entry remains is false. -/
theorem C5_counterexample_stale_survives :
    docYields cfgEx ['h','e','l','l','o'] staleTerm = false
    ∧ lastYield cfgEx docsFresh staleTerm = none
    ∧ scanVaultForLinks cfgEx docsFresh idxStale staleTerm = some "a.md" := by
  refine ⟨by decide, by decide, by decide⟩

/-- C5 amended.  A full rebuild never drops entries: an entry for a term
that no scanned document yields survives the rebuild with its prior owner
unchanged. -/
theorem C5_amended_no_eviction {cfg : Config} {files : List (String × List Char)}
    {idx : Idx} {t : List Char} (h : lastYield cfg files t = none) :
    scanVaultForLinks cfg files idx t = idx t := by
  rw [lookup_scanVault, h]

theorem C5_amended_no_eviction_witness :
    lastYield cfgEx docsFresh staleTerm = none
    ∧ scanVaultForLinks cfgEx docsFresh idxStale staleTerm = idxStale staleTerm :=
  ⟨by decide,
   @C5_amended_no_eviction cfgEx docsFresh idxStale staleTerm (by decide)⟩

/-- C8.  The ignored-word comparison of the cache update is always
case-insensitive: whatever the case-sensitive flag, a word whose
lower-cased cleaned form is in the ignored list changes nothing in the
index. -/
theorem C8_ignored_check_case_insensitive (cfg : Config) (path : String)
    (idx : Idx) (w : List Char)
    (h : cfg.ignoredWords.contains (lowerStr (cleanWord w)) = true) :
    cacheStep cfg path idx w = idx := by
  have hne : cacheInserts cfg w = false := by
    unfold cacheInserts
    rw [h]
    simp
  unfold cacheStep
  rw [hne]
  simp

/-- Case-sensitive configuration ignoring the word the. -/
def cfgCS : Config :=
  { minWordLength := 3
    ignoredWords := [['t','h','e'], ['a','n','d'], ['b','u','t'], ['f','o','r']]
    caseSensitive := true }

theorem C8_ignored_check_case_insensitive_witness :
    cfgCS.ignoredWords.contains (lowerStr (cleanWord ['T','h','e'])) = true
    ∧ cacheStep cfgCS "x.md" emptyIdx ['T','h','e'] = emptyIdx :=
  ⟨by decide,
   C8_ignored_check_case_insensitive cfgCS "x.md" emptyIdx ['T','h','e'] (by decide)⟩

/-! History invariant: entries never contain reference markers. -/

/-- Entries on the history after a line-processing pass: each is either an
entry for the raw word of one of the applied matches, or was already on
the history. -/
theorem history_foldl_applyMatch (cf : String) (ms : List Match)
    (st : EditorState) :
    ∀ e ∈ (ms.foldl (applyMatch cf) st).history,
      (∃ m ∈ ms, e.text = m.word) ∨ e ∈ st.history := by
  induction ms generalizing st with
  | nil =>
    intro e he
    exact Or.inr he
  | cons m ms ih =>
    intro e he
    rcases ih (applyMatch cf st m) e he with ⟨m2, hm2, ht⟩ | hin
    · exact Or.inl ⟨m2, List.mem_cons_of_mem _ hm2, ht⟩
    · rcases List.mem_cons.mp hin with heq | htl
      · exact Or.inl ⟨m, List.mem_cons_self _ _, by rw [heq]⟩
      · exact Or.inr htl

/-- Undo leaves the history equal to what it was or to its tail. -/
theorem undo_history_cases (af : Option String) (st : EditorState) :
    (undoLastLink af st).history = st.history
    ∨ ∃ e0 rest, st.history = e0 :: rest ∧ (undoLastLink af st).history = rest := by
  rcases st with ⟨buf, hist⟩
  cases hist with
  | nil => exact Or.inl rfl
  | cons e0 rest =>
    cases af with
    | none => exact Or.inr ⟨e0, rest, rfl, rfl⟩
    | some f =>
      by_cases hf : f = e0.file
      · exact Or.inr ⟨e0, rest, rfl, by simp [undoLastLink, hf]⟩
      · exact Or.inr ⟨e0, rest, rfl, by simp [undoLastLink, hf]⟩

/-- One operation preserves the marker-free property of all history
entries: rewrites push only raw words that passed the marker filter, and
undo only pops. -/
theorem stepOp_preserves_marker_free {st : EditorState} {op : Op}
    (h : ∀ e ∈ st.history,
      containsSub e.text obr = false ∧ containsSub e.text cbr = false) :
    ∀ e ∈ (stepOp st op).history,
      containsSub e.text obr = false ∧ containsSub e.text cbr = false := by
  cases op with
  | rewrite cfg idx cf line ln =>
    intro e he
    rcases history_foldl_applyMatch cf (findMatches cfg idx cf line ln) st e he with
      ⟨m, hm, ht⟩ | hin
    · rw [ht]
      exact ⟨(mem_findMatches hm).2.2.2.2.2.1, (mem_findMatches hm).2.2.2.2.2.2.1⟩
    · exact h e hin
  | undo af =>
    intro e he
    apply h
    simp only [stepOp] at he
    rcases undo_history_cases af st with heq | ⟨e0, rest, hst, heq⟩
    · rwa [heq] at he
    · rw [heq] at he
      rw [hst]
      exact List.mem_cons_of_mem _ he

/-- C10.  In every state reachable from an empty history by rewrite and
undo operations, no history entry's stored text contains the open or close
reference marker. -/
theorem C10_history_marker_free (buf0 : List (List Char)) (ops : List Op)
    (e : HistEntry) (h : e ∈ (run buf0 ops).history) :
    containsSub e.text obr = false ∧ containsSub e.text cbr = false := by
  suffices hgen : ∀ (ops2 : List Op) (st : EditorState),
      (∀ e2 ∈ st.history,
        containsSub e2.text obr = false ∧ containsSub e2.text cbr = false) →
      ∀ e2 ∈ (ops2.foldl stepOp st).history,
        containsSub e2.text obr = false ∧ containsSub e2.text cbr = false by
    exact hgen ops { buffer := buf0, history := [] } (by simp) e h
  intro ops2
  induction ops2 with
  | nil => exact fun st h0 => h0
  | cons op rest ih =>
    intro st h0
    exact ih (stepOp st op) (stepOp_preserves_marker_free h0)

/-- A one-rewrite operation sequence on the concrete example line. -/
def opsEx : List Op :=
  [Op.rewrite cfgEx idxEx "other.md" lineEx 0]

/-- The history entry that the example rewrite pushes. -/
def entryEx : HistEntry :=
  { text := ['b','a','n','a','n','a'], line := 0, ch := 7, file := "other.md" }

theorem C10_history_marker_free_witness :
    entryEx ∈ (run [lineEx] opsEx).history
    ∧ containsSub entryEx.text obr = false
    ∧ containsSub entryEx.text cbr = false := by
  have hmem : entryEx ∈ (run [lineEx] opsEx).history := by decide
  obtain ⟨h1, h2⟩ := C10_history_marker_free [lineEx] opsEx entryEx hmem
  exact ⟨hmem, h1, h2⟩

end AutoLink
